import Mathlib

/-!
# Verification of the G_video_clipper transcript pipeline

Shallow embedding of the two source files of the repository:

* `clipitdemo.py` — greedy merging of transcript entries into clip-sized
  spans (`combine_entries`).
* `keyword_finder.py` — time-string parsing and formatting (`parse_time`,
  `format_time`), the per-segment keyword scan (`process_segments`) and its
  driver (`find_keywords_in_video`).

Modelling conventions: Python floats carrying seconds are modelled as exact
integers (`Int`); every example in the claims is integral and none of the
verified properties depends on rounding.  Python strings are modelled as
`String`/`List Char` with ASCII case mapping.  A Python function that can
raise is modelled with `Option`, `none` standing for the raised exception.
-/

/-- A transcript entry of `clipitdemo.py` (`get_segment_info` items):
`{"start": ..., "end": ..., "text": ...}`.  `end` is rendered `end_`
because `end` is a Lean keyword. -/
structure Entry where
  start : Int
  end_ : Int
  text : String
deriving DecidableEq, Repr

/-- The loop body state of `combine_entries`: the optional
`current_entry` and `total_duration`, consuming the remaining entries.
Faithful to `clipitdemo.py` lines 69–98: the overflow test
`total_duration + entry_duration > 30` runs first; on overflow with a
running entry, the running entry's `end` is overwritten with the incoming
entry's `end` (line 75) before it is emitted, and the incoming entry
becomes the new running entry with `total_duration = entry_duration`;
otherwise the running entry is extended (`end` replaced, text joined with
a space, duration accumulated), or started if absent. -/
def combineAux : List Entry → Option Entry → Int → List Entry
  | [], none, _ => []
  | [], some c, _ => [c]
  | e :: rest, cur, total =>
    let d := e.end_ - e.start
    if total + d > 30 then
      match cur with
      | some c => { c with end_ := e.end_ } :: combineAux rest (some e) d
      | none => combineAux rest (some e) d
    else
      match cur with
      | some c =>
          combineAux rest
            (some { c with end_ := e.end_, text := c.text ++ " " ++ e.text })
            (total + d)
      | none => combineAux rest (some e) d

/-- `combine_entries` of `clipitdemo.py` (lines 64–104): start with no
current entry and `total_duration = 0`, fold the entries, and append the
still-open entry at the end. -/
def combine_entries (entries : List Entry) : List Entry :=
  combineAux entries none 0

/-- The three-fragment example used by the spec:
`[{0,10,"a"},{10,25,"b"},{25,40,"c"}]`. -/
def exThree : List Entry :=
  [⟨0, 10, "a"⟩, ⟨10, 25, "b"⟩, ⟨25, 40, "c"⟩]

/-! ## String primitives shared by `keyword_finder.py`'s functions

Python's built-in string operations used by the source, modelled on
`List Char`. -/

/-- Python `str.split(sep)` for a one-character separator: splitting the
empty string yields `[""]`, and `n` separators yield `n + 1` pieces. -/
def splitOnChar (sep : Char) : List Char → List (List Char)
  | [] => [[]]
  | c :: rest =>
    let r := splitOnChar sep rest
    if c = sep then [] :: r
    else
      match r with
      | [] => [[c]]
      | h :: t => (c :: h) :: t

/-- Python `str.strip()` with no argument: remove leading and trailing
whitespace. -/
def stripL (l : List Char) : List Char :=
  ((l.dropWhile Char.isWhitespace).reverse.dropWhile Char.isWhitespace).reverse

/-- Python `str.lower()` (ASCII case mapping suffices for the claims). -/
def lowerL (l : List Char) : List Char :=
  l.map Char.toLower

/-- Value of a run of decimal digit characters, most significant first. -/
def digitsVal (l : List Char) : Nat :=
  l.foldl (fun a c => 10 * a + (c.toNat - 48)) 0

/-- Python's built-in `int()` applied to a string: strip surrounding
whitespace, allow one leading sign, then require a non-empty run of
decimal digits (PEP 515 underscore grouping is not modelled; no claim
involves it).  `none` models the raised `ValueError`. -/
def pythonIntL (l : List Char) : Option Int :=
  let t := stripL l
  let sd : Int × List Char :=
    if t.head? = some '-' then (-1, t.tail)
    else if t.head? = some '+' then (1, t.tail)
    else (1, t)
  if sd.2 ≠ [] ∧ sd.2.all Char.isDigit = true then
    some (sd.1 * (digitsVal sd.2 : Int))
  else none

/-- `map int` over the colon-separated parts (`keyword_finder.py` line 85):
`none` when any part makes `int()` raise. -/
def parseParts : List (List Char) → Option (List Int)
  | [] => some []
  | p :: ps =>
    match pythonIntL p, parseParts ps with
    | some v, some vs => some (v :: vs)
    | _, _ => none

/-- Body of `parse_time` on an actual string (`keyword_finder.py` lines
84–93): split on `':'`, map `int` over the parts (any failure raises,
modelled `none`), then combine 3 parts as H:M:S, 2 parts as M:S, and
otherwise fall back to `int(time_str)` on the whole string — which raises
whenever the string still contains a `':'` (4 or more parts). -/
def parseTimeL (l : List Char) : Option Int :=
  let parts := splitOnChar ':' l
  match parseParts parts with
  | none => none
  | some tp =>
    match tp with
    | [h, m, s] => some (h * 3600 + m * 60 + s)
    | [m, s] => some (m * 60 + s)
    | _ => pythonIntL l

/-- `parse_time` of `keyword_finder.py` (lines 80–93).  `parse_time(None)`
returns `None` (modelled `some none`); a raised `ValueError` is the outer
`none`; a parsed count of seconds is `some (some v)`. -/
def parse_time (time_str : Option String) : Option (Option Int) :=
  match time_str with
  | none => some none
  | some s =>
    match parseTimeL s.data with
    | none => none
    | some v => some (some v)

/-- The character of the decimal digit `d`. -/
def digitChar (d : Nat) : Char :=
  Char.ofNat (48 + d)

/-- Decimal rendering of a natural number, most significant digit first,
via structural fuel (`n + 1` is always enough since `n / 10 < n`). -/
def natDigitsAux : Nat → Nat → List Char → List Char
  | 0, _, acc => acc
  | fuel + 1, n, acc =>
    if n < 10 then digitChar n :: acc
    else natDigitsAux fuel (n / 10) (digitChar (n % 10) :: acc)

/-- Decimal rendering of a natural number. -/
def natToDigits (n : Nat) : List Char :=
  natDigitsAux (n + 1) n []

/-- A two-digit zero-padded field of `str(datetime.timedelta)`. -/
def twoDigits (n : Nat) : List Char :=
  if n < 10 then '0' :: natToDigits n else natToDigits n

/-- `str(datetime.timedelta(seconds=s))` for a non-negative integral
second count: `H:MM:SS` with unpadded hours, preceded by `D day, ` /
`D days, ` when `s` reaches a day. -/
def formatTimeL (s : Nat) : List Char :=
  let days := s / 86400
  let rem := s % 86400
  let core :=
    natToDigits (rem / 3600) ++ ':' :: twoDigits (rem % 3600 / 60)
      ++ ':' :: twoDigits (rem % 60)
  if days = 0 then core
  else
    natToDigits days
      ++ (if days = 1 then " day, ".data else " days, ".data) ++ core

/-- `format_time` of `keyword_finder.py` (lines 95–97):
`str(datetime.timedelta(seconds=int(seconds)))`. -/
def format_time (seconds : Nat) : String :=
  ⟨formatTimeL seconds⟩

/-! ## The keyword scan of `keyword_finder.py` -/

/-- A transcript fragment as produced by the transcription collaborator
for one chunk (`transcription['segments']` items): chunk-local `start`
and `end` seconds and the spoken text. -/
structure Frag where
  start : Int
  end_ : Int
  text : String
deriving DecidableEq, Repr

/-- Python's substring containment `needle in hay` on strings. -/
def strContains : List Char → List Char → Bool
  | [], needle => needle.isEmpty
  | c :: t, needle => needle.isPrefixOf (c :: t) || strContains t needle

/-- The per-fragment test of `process_segments` (lines 210–220): lowercase
the fragment text, and when the lowercased keyword occurs in it record
`{'timestamp': fragment.start + offset, 'text': fragment.text}` — the
offset is the chunk's start and the stored text is the original
(un-lowercased) one.  `kwl` is the already-lowercased keyword. -/
def scanFrag (kwl : List Char) (offset : Int) (f : Frag) : Option (Int × String) :=
  if strContains (lowerL f.text.data) kwl = true then
    some (f.start + offset, f.text)
  else none

/-- The chunk loop of `process_segments` (lines 198–220) for one keyword:
chunk `i` (the index ffmpeg put into `segment_%03d.mp4`, recovered by the
regex and equal to the position in the sorted segment list) contributes
its fragments' hits at offset `i * 120` — "Each segment is 120 seconds".
`i` is the index of the first chunk of `chunks`. -/
def hitsForAux (kwl : List Char) : List (List Frag) → Nat → List (Int × String)
  | [], _ => []
  | frags :: rest, i =>
    frags.filterMap (scanFrag kwl ((i : Int) * 120)) ++ hitsForAux kwl rest (i + 1)

/-- `process_segments` of `keyword_finder.py` (lines 190–233): the result
dict maps each keyword to its hits across all chunks in order.  The dict
is modelled as an association list in keyword order (the claims never use
duplicate keywords, where a dict would collapse keys). -/
def process_segments (chunks : List (List Frag)) (keywords : List String) :
    List (String × List (Int × String)) :=
  keywords.map fun kw => (kw, hitsForAux (lowerL kw.data) chunks 0)

/-- The keyword clean-up of `find_keywords_in_video` (lines 242–243) when
the keywords arrive as one comma-separated string: split on `','` and
strip each piece.  Blank pieces are kept. -/
def cleanKeywords (s : String) : List String :=
  (splitOnChar ',' s.data).map fun l => ⟨stripL l⟩

/-- `find_keywords_in_video` of `keyword_finder.py` (lines 235–264) after
the keyword clean-up: lines 250–251 compute `start` and `end` from
`begin_time`, `end_time` and the probed `duration`, but those two locals
are never read again — the scan runs on every chunk regardless of the
window.  The dead computation is reproduced here as unused lets. -/
def find_keywords_in_video (chunks : List (List Frag)) (keywords : List String)
    (begin_time end_time : Option Int) (duration : Int) :
    List (String × List (Int × String)) :=
  let _start := match begin_time with | some b => b | none => 0
  let _end := min (match end_time with | some e => e | none => duration) duration
  process_segments chunks keywords

/-! ## Shared helper lemmas -/

/-- The empty needle is contained in every string, as Python's `"" in s`. -/
theorem strContains_nil (l : List Char) : strContains l [] = true := by
  cases l <;> simp [strContains, List.isPrefixOf]

/-! ## Claims about `combine_entries` (C1, C3, C9) -/

/-- C1, counterexample: merging `[{0,10,"a"},{10,25,"b"},{25,40,"c"}]`
with target 30 does not produce the claimed spans `{0,25,"a b"}` and
`{25,40,"c"}` — the closed span's `end` is overwritten with the incoming
fragment's `end` (line 75 of `clipitdemo.py`), so the first span is
`{0,40,"a b"}`. -/
theorem combine_entries_example_ne_claimed :
    combine_entries exThree ≠ [⟨0, 25, "a b"⟩, ⟨25, 40, "c"⟩] := by decide

/-- C1, amended: when a fragment's arrival makes
`accumulated + fragment_duration` exceed 30 while a running span exists,
the closed and emitted span keeps the running span's start and text but
its `end` is set to the *incoming* fragment's end (the incoming
fragment's time range is absorbed into the closed span, its text is not),
and the incoming fragment starts the new running span; on the example,
merging yields `{0,40,"a b"}` then `{25,40,"c"}`. -/
theorem combine_entries_overflow_closes_at_incoming_end
    (c e : Entry) (rest : List Entry) (total : Int)
    (h : total + (e.end_ - e.start) > 30) :
    combineAux (e :: rest) (some c) total
        = { c with end_ := e.end_ } :: combineAux rest (some e) (e.end_ - e.start)
    ∧ combine_entries exThree = [⟨0, 40, "a b"⟩, ⟨25, 40, "c"⟩] := by
  refine ⟨?_, by decide⟩
  simp [combineAux, h]

/-- C1, witness: the amended overflow rule at the example's split point
(running span `{0,25,"a b"}`, accumulated 25, incoming `{25,40,"c"}`). -/
theorem combine_entries_overflow_witness :
    combineAux [⟨25, 40, "c"⟩] (some ⟨0, 25, "a b"⟩) 25
        = { start := 0, end_ := 40, text := "a b" }
            :: combineAux [] (some ⟨25, 40, "c"⟩) 15
    ∧ combine_entries exThree = [⟨0, 40, "a b"⟩, ⟨25, 40, "c"⟩] :=
  combine_entries_overflow_closes_at_incoming_end
    ⟨0, 25, "a b"⟩ ⟨25, 40, "c"⟩ [] 25 (by decide)

/-- C9: a single fragment is emitted alone and unchanged as the only
span, in particular when its own duration already exceeds 30. -/
theorem combine_entries_single (e : Entry) (_h : e.end_ - e.start > 30) :
    combine_entries [e] = [e] := by
  simp [combine_entries, combineAux]

/-- C9, witness: the single fragment `{0,40,"c"}` of duration 40 > 30 is
returned unchanged as one span. -/
theorem combine_entries_single_witness :
    combine_entries [⟨0, 40, "c"⟩] = [⟨0, 40, "c"⟩] :=
  combine_entries_single ⟨0, 40, "c"⟩ (by decide)

/-- Every span emitted by `combineAux` starts either at the running
span's start or at the start of one of the remaining entries. -/
theorem combineAux_start_mem :
    ∀ (l : List Entry) (c : Entry) (total : Int) (x : Entry),
      x ∈ combineAux l (some c) total →
      x.start = c.start ∨ ∃ e ∈ l, x.start = e.start := by
  intro l
  induction l with
  | nil =>
    intro c total x hx
    simp [combineAux] at hx
    exact Or.inl (by rw [hx])
  | cons e rest ih =>
    intro c total x hx
    by_cases h : total + (e.end_ - e.start) > 30
    · simp only [combineAux, if_pos h, List.mem_cons] at hx
      rcases hx with h1 | h2
      · exact Or.inl (by rw [h1])
      · rcases ih e _ x h2 with h3 | ⟨e', he', h4⟩
        · exact Or.inr ⟨e, List.mem_cons_self _ _, h3⟩
        · exact Or.inr ⟨e', List.mem_cons_of_mem _ he', h4⟩
    · simp only [combineAux, if_neg h] at hx
      rcases ih _ _ x hx with h3 | ⟨e', he', h4⟩
      · exact Or.inl h3
      · exact Or.inr ⟨e', List.mem_cons_of_mem _ he', h4⟩

/-- When the running span starts no later than every remaining entry and
the remaining entries have pairwise non-decreasing starts, the spans
emitted by `combineAux` have pairwise non-decreasing starts. -/
theorem combineAux_pairwise_start :
    ∀ (l : List Entry) (c : Entry) (total : Int),
      (∀ e ∈ l, c.start ≤ e.start) →
      List.Pairwise (fun a b : Entry => a.start ≤ b.start) l →
      List.Pairwise (fun a b : Entry => a.start ≤ b.start)
        (combineAux l (some c) total) := by
  intro l
  induction l with
  | nil =>
    intro c total _ _
    simp [combineAux]
  | cons e rest ih =>
    intro c total hle hp
    rcases List.pairwise_cons.mp hp with ⟨he, hp'⟩
    by_cases h : total + (e.end_ - e.start) > 30
    · simp only [combineAux, if_pos h]
      refine List.pairwise_cons.mpr ⟨?_, ih e _ he hp'⟩
      intro x hx
      rcases combineAux_start_mem rest e _ x hx with h3 | ⟨e', he', h4⟩
      · show c.start ≤ x.start
        rw [h3]
        exact hle e (List.mem_cons_self _ _)
      · show c.start ≤ x.start
        rw [h4]
        exact hle e' (List.mem_cons_of_mem _ he')
    · simp only [combineAux, if_neg h]
      exact ih _ _ (fun x hx => hle x (List.mem_cons_of_mem _ hx)) hp'

/-- C3, counterexample: on the example input the merge emits the spans
`{0,40,"a b"}` and `{25,40,"c"}`, whose time ranges overlap — the first
span's end exceeds the second span's start. -/
theorem combine_entries_spans_overlap :
    ¬ List.Pairwise (fun a b : Entry => a.end_ ≤ b.start)
        (combine_entries exThree) := by decide

/-- C3, amended: for input fragments with pairwise non-decreasing starts
the spans come out in non-decreasing start order, but consecutive spans
may overlap (an emitted span's end can exceed the next span's start, as
the counterexample shows). -/
theorem combine_entries_starts_ordered (l : List Entry)
    (h : List.Pairwise (fun a b : Entry => a.start ≤ b.start) l) :
    List.Pairwise (fun a b : Entry => a.start ≤ b.start) (combine_entries l) := by
  cases l with
  | nil => simp [combine_entries, combineAux]
  | cons e rest =>
    rcases List.pairwise_cons.mp h with ⟨he, hp⟩
    by_cases hov : (0 : Int) + (e.end_ - e.start) > 30
    · simp only [combine_entries, combineAux, if_pos hov]
      exact combineAux_pairwise_start rest e _ he hp
    · simp only [combine_entries, combineAux, if_neg hov]
      exact combineAux_pairwise_start rest e _ he hp

/-- C3, witness: the example input is start-ordered and so is its merge
output. -/
theorem combine_entries_starts_ordered_witness :
    List.Pairwise (fun a b : Entry => a.start ≤ b.start)
      (combine_entries exThree) :=
  combine_entries_starts_ordered exThree (by decide)

/-! ## Claims about the keyword scan (C2, C4, C5, C8) -/

/-- C2: the supplied time window has no effect on the scan —
`find_keywords_in_video` computes `start` and `end` from `begin_time`,
`end_time` and the video duration but never reads them (lines 250–251 of
`keyword_finder.py` are dead code) — and in particular the fragment
`{5,15,"a fox ran"}`, which only partially overlaps the window `[0,10]`
and per the claim should contribute no hits, still yields its hit. -/
theorem find_keywords_window_ignored :
    (∀ (chunks : List (List Frag)) (kws : List String)
        (b1 e1 b2 e2 : Option Int) (d1 d2 : Int),
        find_keywords_in_video chunks kws b1 e1 d1
          = find_keywords_in_video chunks kws b2 e2 d2)
    ∧ find_keywords_in_video [[⟨5, 15, "a fox ran"⟩]] ["fox"] (some 0) (some 10) 200
        = [("fox", [(5, "a fox ran")])] :=
  ⟨fun _ _ _ _ _ _ _ _ => rfl, by decide⟩

/-- C5, counterexample: a keyword string that leaves no usable keyword
after stripping does not fail — `cleanKeywords " "` keeps the blank entry
`""`, no `EmptyKeywordSet` error exists anywhere in the code, and the
blank keyword then matches every fragment. -/
theorem blank_keywords_do_not_fail :
    cleanKeywords " " = [""]
    ∧ find_keywords_in_video [[⟨0, 5, "hello"⟩]] (cleanKeywords " ") none none 100
        = [("", [(0, "hello")])] := by
  constructor <;> decide

/-- C5, amended: the scan performs no keyword-set validation: splitting
and stripping keeps blank entries (`" , "` cleans to `["", ""]`), nothing
fails, and a blank keyword matches every fragment because the empty
string is a substring of every text. -/
theorem blank_keyword_matches_everything :
    (∀ (f : Frag) (offset : Int),
        scanFrag (lowerL "".data) offset f = some (f.start + offset, f.text))
    ∧ cleanKeywords " , " = ["", ""] := by
  refine ⟨fun f offset => ?_, by decide⟩
  have h0 : lowerL "".data = [] := rfl
  simp [scanFrag, h0, strContains_nil]

/-- C8: a fragment yields a hit for a keyword — with the fragment's
original text stored — exactly when the lowercased keyword occurs as a
raw substring of the lowercased fragment text; in particular keyword
`"Fox"` matches text `"a fox ran"`. -/
theorem scan_is_ci_substring :
    (∀ (kw : String) (offset : Int) (f : Frag),
        scanFrag (lowerL kw.data) offset f = some (f.start + offset, f.text)
          ↔ strContains (lowerL f.text.data) (lowerL kw.data) = true)
    ∧ scanFrag (lowerL "Fox".data) 0 ⟨0, 5, "a fox ran"⟩ = some (0, "a fox ran") := by
  refine ⟨fun kw offset f => ?_, by decide⟩
  by_cases hc : strContains (lowerL f.text.data) (lowerL kw.data) = true
  · simp [scanFrag, hc]
  · simp [scanFrag, hc]

/-- Every hit produced by the chunk loop started at chunk index `j` comes
from a fragment of some chunk `i` positions further on, carries that
fragment's chunk-local start plus `(j + i) * 120`, and stores the
fragment's original text. -/
theorem hitsForAux_mem :
    ∀ (chunks : List (List Frag)) (j : Nat) (kwl : List Char) (p : Int × String),
      p ∈ hitsForAux kwl chunks j →
      ∃ (i : Nat) (frags : List Frag) (f : Frag),
        chunks[i]? = some frags ∧ f ∈ frags
        ∧ strContains (lowerL f.text.data) kwl = true
        ∧ p = (f.start + ((j + i : Nat) : Int) * 120, f.text) := by
  intro chunks
  induction chunks with
  | nil =>
    intro j kwl p hp
    simp [hitsForAux] at hp
  | cons frags rest ih =>
    intro j kwl p hp
    simp only [hitsForAux, List.mem_append] at hp
    rcases hp with h1 | h2
    · rcases List.mem_filterMap.mp h1 with ⟨f, hf, hsf⟩
      by_cases hc : strContains (lowerL f.text.data) kwl = true
      · refine ⟨0, frags, f, by simp, hf, hc, ?_⟩
        simp only [scanFrag, hc, if_pos] at hsf
        rw [← Option.some_inj.mp hsf]
        norm_num
      · simp [scanFrag, hc] at hsf
    · rcases ih (j + 1) kwl p h2 with ⟨i, frags', f, hget, hf, hc, hp'⟩
      refine ⟨i + 1, frags', f, ?_, hf, hc, ?_⟩
      · simpa using hget
      · rw [hp']
        have harith : j + 1 + i = j + (i + 1) := by omega
        rw [harith]

/-- C4: every hit in the mapping returned by `process_segments` carries a
timestamp already rebased to the whole-video timeline: it equals the
matched fragment's chunk-local start plus `i * 120` for the index `i` of
the chunk the fragment came from, and it stores the fragment's text
unchanged. -/
theorem process_segments_rebased (chunks : List (List Frag))
    (keywords : List String) (kw : String) (hits : List (Int × String))
    (p : Int × String)
    (hkw : (kw, hits) ∈ process_segments chunks keywords) (hp : p ∈ hits) :
    ∃ (i : Nat) (frags : List Frag) (f : Frag),
      chunks[i]? = some frags ∧ f ∈ frags
      ∧ strContains (lowerL f.text.data) (lowerL kw.data) = true
      ∧ p = (f.start + (i : Int) * 120, f.text) := by
  rcases List.mem_map.mp hkw with ⟨kw', _hkw', heq⟩
  injection heq with h1 h2
  subst h1
  rw [← h2] at hp
  rcases hitsForAux_mem chunks 0 _ p hp with ⟨i, frags, f, h1, h2, h3, h4⟩
  refine ⟨i, frags, f, h1, h2, h3, ?_⟩
  rw [h4]
  norm_num

/-- C4, witness: the hit `(122, " a Fox ran")` found in chunk index 1
(offset 120) for keyword `"fox"` decomposes as the theorem states. -/
theorem process_segments_rebased_witness :
    ∃ (i : Nat) (frags : List Frag) (f : Frag),
      ([[⟨0, 3, "quiet"⟩], [⟨2, 7, " a Fox ran"⟩]] : List (List Frag))[i]? = some frags
      ∧ f ∈ frags
      ∧ strContains (lowerL f.text.data) (lowerL "fox".data) = true
      ∧ ((122 : Int), " a Fox ran") = (f.start + (i : Int) * 120, f.text) :=
  process_segments_rebased [[⟨0, 3, "quiet"⟩], [⟨2, 7, " a Fox ran"⟩]]
    ["fox"] "fox" [(122, " a Fox ran")] (122, " a Fox ran")
    (by decide) (by decide)

/-! ## Decimal rendering round-trip lemmas (for C6 and C7) -/

/-- The characters of decimal digits are digits, are not whitespace, and
are none of the separator or sign characters `parse_time` cares about. -/
theorem digitChar_facts (d : Nat) (hd : d < 10) :
    (digitChar d).isDigit = true ∧ (digitChar d).isWhitespace = false
      ∧ digitChar d ≠ ':' ∧ digitChar d ≠ '-' ∧ digitChar d ≠ '+'
      ∧ (digitChar d).toNat = 48 + d := by
  have h : d = 0 ∨ d = 1 ∨ d = 2 ∨ d = 3 ∨ d = 4 ∨ d = 5 ∨ d = 6 ∨ d = 7
      ∨ d = 8 ∨ d = 9 := by omega
  rcases h with rfl | rfl | rfl | rfl | rfl | rfl | rfl | rfl | rfl | rfl <;> decide

/-- `natDigitsAux` with enough fuel produces a non-empty run of digit
characters in front of the accumulator. -/
theorem natDigitsAux_shape :
    ∀ (fuel n : Nat) (acc : List Char), n < fuel →
      ∃ (d : Nat) (rest : List Char), d < 10
        ∧ natDigitsAux fuel n acc = digitChar d :: (rest ++ acc)
        ∧ ∀ c ∈ rest, ∃ e, e < 10 ∧ c = digitChar e := by
  intro fuel
  induction fuel with
  | zero => intro n acc h; omega
  | succ fuel ih =>
    intro n acc hn
    by_cases h10 : n < 10
    · exact ⟨n, [], h10, by simp [natDigitsAux, h10], by simp⟩
    · have hlt : n / 10 < fuel := by omega
      rcases ih (n / 10) (digitChar (n % 10) :: acc) hlt with ⟨d, rest, hd, heq, hmem⟩
      refine ⟨d, rest ++ [digitChar (n % 10)], hd, ?_, ?_⟩
      · simp only [natDigitsAux, if_neg h10, heq, List.append_assoc,
          List.singleton_append]
      · intro c hc
        rcases List.mem_append.mp hc with h1 | h2
        · exact hmem c h1
        · rcases List.mem_singleton.mp h2 with rfl
          exact ⟨n % 10, by omega, rfl⟩

/-- Folding the digit-valuation step over `natDigitsAux`'s output shifts
the accumulated value left by the digit count and adds `n`. -/
theorem natDigitsAux_val :
    ∀ (fuel n : Nat) (acc : List Char) (a : Nat), n < fuel →
      ∃ k, 0 < k
        ∧ List.foldl (fun a c => 10 * a + (c.toNat - 48)) a (natDigitsAux fuel n acc)
            = List.foldl (fun a c => 10 * a + (c.toNat - 48)) (a * 10 ^ k + n) acc := by
  intro fuel
  induction fuel with
  | zero => intro n acc a h; omega
  | succ fuel ih =>
    intro n acc a hn
    by_cases h10 : n < 10
    · refine ⟨1, Nat.one_pos, ?_⟩
      simp only [natDigitsAux, if_pos h10, List.foldl_cons]
      have ht := (digitChar_facts n h10).2.2.2.2.2
      rw [ht]
      congr 1
      rw [pow_one]
      omega
    · have hlt : n / 10 < fuel := by omega
      rcases ih (n / 10) (digitChar (n % 10) :: acc) a hlt with ⟨k, hk, hval⟩
      refine ⟨k + 1, by omega, ?_⟩
      simp only [natDigitsAux, if_neg h10]
      rw [hval]
      simp only [List.foldl_cons]
      have ht := (digitChar_facts (n % 10) (by omega)).2.2.2.2.2
      rw [ht]
      have harith : 10 * (a * 10 ^ k + n / 10) + (48 + n % 10 - 48)
          = a * 10 ^ (k + 1) + n := by
        have h48 : 48 + n % 10 - 48 = n % 10 := by omega
        have hdm : 10 * (n / 10) + n % 10 = n := Nat.div_add_mod n 10
        rw [pow_succ, h48]
        calc 10 * (a * 10 ^ k + n / 10) + n % 10
            = a * (10 ^ k * 10) + (10 * (n / 10) + n % 10) := by ring
          _ = a * (10 ^ k * 10) + n := by rw [hdm]
      rw [harith]

/-- The decimal rendering of `n` values back to `n`. -/
theorem digitsVal_natToDigits (n : Nat) : digitsVal (natToDigits n) = n := by
  rcases natDigitsAux_val (n + 1) n [] 0 (by omega) with ⟨k, _, hval⟩
  simpa [digitsVal, natToDigits] using hval

/-- The decimal rendering of `n` is a non-empty run of digit characters. -/
theorem natToDigits_shape (n : Nat) :
    ∃ (d : Nat) (rest : List Char), d < 10
      ∧ natToDigits n = digitChar d :: rest
      ∧ ∀ c ∈ rest, ∃ e, e < 10 ∧ c = digitChar e := by
  rcases natDigitsAux_shape (n + 1) n [] (by omega) with ⟨d, rest, hd, heq, hmem⟩
  exact ⟨d, rest, hd, by simpa [natToDigits] using heq, hmem⟩

/-- Every character of the decimal rendering is a digit character. -/
theorem natToDigits_all (n : Nat) :
    ∀ c ∈ natToDigits n, ∃ e, e < 10 ∧ c = digitChar e := by
  rcases natToDigits_shape n with ⟨d, rest, hd, heq, hmem⟩
  intro c hc
  rw [heq] at hc
  rcases List.mem_cons.mp hc with rfl | h2
  · exact ⟨d, hd, rfl⟩
  · exact hmem c h2

/-- `dropWhile` is the identity when no element satisfies the predicate. -/
theorem dropWhile_eq_self_of_false (p : Char → Bool) (l : List Char)
    (h : ∀ c ∈ l, p c = false) : l.dropWhile p = l := by
  cases l with
  | nil => rfl
  | cons c t => simp [List.dropWhile, h c (List.mem_cons_self _ _)]

/-- Stripping leaves a whitespace-free string unchanged. -/
theorem stripL_eq_self (l : List Char)
    (h : ∀ c ∈ l, Char.isWhitespace c = false) : stripL l = l := by
  unfold stripL
  rw [dropWhile_eq_self_of_false _ _ h,
    dropWhile_eq_self_of_false _ _ (fun c hc => h c (List.mem_reverse.mp hc)),
    List.reverse_reverse]

/-- `int()` on a non-empty run of digit characters succeeds with the
run's decimal value. -/
theorem pythonIntL_digit_run (d : Nat) (rest : List Char) (hd : d < 10)
    (hrest : ∀ c ∈ rest, ∃ e, e < 10 ∧ c = digitChar e) :
    pythonIntL (digitChar d :: rest)
      = some ((digitsVal (digitChar d :: rest) : Nat) : Int) := by
  have hall : ∀ c ∈ digitChar d :: rest, ∃ e, e < 10 ∧ c = digitChar e := by
    intro c hc
    rcases List.mem_cons.mp hc with rfl | h2
    · exact ⟨d, hd, rfl⟩
    · exact hrest c h2
  have hnws : ∀ c ∈ digitChar d :: rest, Char.isWhitespace c = false := by
    intro c hc
    rcases hall c hc with ⟨e, he, rfl⟩
    exact (digitChar_facts e he).2.1
  have hstrip : stripL (digitChar d :: rest) = digitChar d :: rest :=
    stripL_eq_self _ hnws
  have hne : digitChar d ≠ '-' := (digitChar_facts d hd).2.2.2.1
  have hnp : digitChar d ≠ '+' := (digitChar_facts d hd).2.2.2.2.1
  have hdig : (digitChar d :: rest).all Char.isDigit = true := by
    rw [List.all_eq_true]
    intro c hc
    rcases hall c hc with ⟨e, he, rfl⟩
    exact (digitChar_facts e he).1
  simp only [pythonIntL, hstrip, List.head?_cons]
  rw [if_neg (fun hopt => hne (Option.some_inj.mp hopt)),
    if_neg (fun hopt => hnp (Option.some_inj.mp hopt)),
    if_pos ⟨List.cons_ne_nil _ _, hdig⟩]
  rw [one_mul]

/-- `int()` reads the decimal rendering of `n` back as `n`. -/
theorem pythonIntL_natToDigits (n : Nat) :
    pythonIntL (natToDigits n) = some ((n : Nat) : Int) := by
  rcases natToDigits_shape n with ⟨d, rest, hd, heq, hmem⟩
  rw [heq, pythonIntL_digit_run d rest hd hmem, ← heq, digitsVal_natToDigits]

/-- The zero-padded two-digit field values back to its argument. -/
theorem digitsVal_twoDigits (m : Nat) : digitsVal (twoDigits m) = m := by
  by_cases h : m < 10
  · have h0 : ('0').toNat - 48 = 0 := by decide
    simp only [twoDigits, if_pos h, digitsVal, List.foldl_cons, h0]
    have h00 : 10 * 0 + 0 = 0 := by omega
    rw [h00]
    exact digitsVal_natToDigits m
  · simp only [twoDigits, if_neg h]
    exact digitsVal_natToDigits m

/-- `int()` reads the zero-padded two-digit field back as its value. -/
theorem pythonIntL_twoDigits (m : Nat) :
    pythonIntL (twoDigits m) = some ((m : Nat) : Int) := by
  by_cases h : m < 10
  · have h00 : '0' = digitChar 0 := by decide
    have htwo : twoDigits m = digitChar 0 :: natToDigits m := by
      simp only [twoDigits, if_pos h, h00]
    rw [htwo, pythonIntL_digit_run 0 (natToDigits m) (by omega) (natToDigits_all m)]
    rw [← htwo, digitsVal_twoDigits]
  · simp only [twoDigits, if_neg h]
    exact pythonIntL_natToDigits m

/-- No character of the decimal rendering of `n` is `':'`. -/
theorem natToDigits_ne_colon (n : Nat) : ∀ c ∈ natToDigits n, c ≠ ':' := by
  intro c hc
  rcases natToDigits_all n c hc with ⟨e, he, rfl⟩
  exact (digitChar_facts e he).2.2.1

/-- No character of the two-digit field is `':'`. -/
theorem twoDigits_ne_colon (m : Nat) : ∀ c ∈ twoDigits m, c ≠ ':' := by
  intro c hc
  by_cases h : m < 10
  · simp only [twoDigits, if_pos h] at hc
    rcases List.mem_cons.mp hc with rfl | h2
    · decide
    · exact natToDigits_ne_colon m c h2
  · simp only [twoDigits, if_neg h] at hc
    exact natToDigits_ne_colon m c hc

/-- `split` never returns an empty list of parts. -/
theorem splitOnChar_ne_nil (sep : Char) (l : List Char) :
    splitOnChar sep l ≠ [] := by
  cases l with
  | nil => simp [splitOnChar]
  | cons c rest =>
    simp only [splitOnChar]
    by_cases h : c = sep
    · simp [h]
    · simp only [if_neg h]
      cases splitOnChar sep rest <;> simp

/-- Splitting a string free of the separator yields that one piece. -/
theorem splitOnChar_no_sep (sep : Char) (l : List Char)
    (h : ∀ c ∈ l, c ≠ sep) : splitOnChar sep l = [l] := by
  induction l with
  | nil => rfl
  | cons c t ih =>
    have hc : c ≠ sep := h c (List.mem_cons_self _ _)
    have ht : splitOnChar sep t = [t] :=
      ih (fun x hx => h x (List.mem_cons_of_mem _ hx))
    simp [splitOnChar, hc, ht]

/-- Splitting at the first separator occurrence peels off the prefix. -/
theorem splitOnChar_append (sep : Char) (xs ys : List Char)
    (h : ∀ c ∈ xs, c ≠ sep) :
    splitOnChar sep (xs ++ sep :: ys) = xs :: splitOnChar sep ys := by
  induction xs with
  | nil => simp [splitOnChar]
  | cons c t ih =>
    have hc : c ≠ sep := h c (List.mem_cons_self _ _)
    have ht := ih (fun x hx => h x (List.mem_cons_of_mem _ hx))
    simp [splitOnChar, hc, ht]

/-- The colon-split of `format_time`'s output below one day is exactly
the three rendered fields. -/
theorem splitOnChar_format (s : Nat) (hs : s < 86400) :
    splitOnChar ':' (formatTimeL s)
      = [natToDigits (s / 3600), twoDigits (s % 3600 / 60), twoDigits (s % 60)] := by
  have hdays : s / 86400 = 0 := Nat.div_eq_of_lt hs
  have hrem : s % 86400 = s := Nat.mod_eq_of_lt hs
  have hfmt : formatTimeL s
      = natToDigits (s / 3600)
          ++ ':' :: (twoDigits (s % 3600 / 60) ++ ':' :: twoDigits (s % 60)) := by
    simp [formatTimeL, hdays, hrem]
  rw [hfmt, splitOnChar_append ':' _ _ (natToDigits_ne_colon _),
    splitOnChar_append ':' _ _ (twoDigits_ne_colon _),
    splitOnChar_no_sep ':' _ (twoDigits_ne_colon _)]

/-! ## Claims about the time codec (C6, C7, C10) -/

/-- C6, counterexample: at `s = 86400` the round trip fails —
`format_time 86400 = "1 day, 0:00:00"` (the `str(timedelta)` day prefix),
on which `parse_time` raises `ValueError` instead of returning 86400. -/
theorem parse_format_fails_at_a_day :
    format_time 86400 = "1 day, 0:00:00"
    ∧ parse_time (some (format_time 86400)) = none
    ∧ parse_time (some (format_time 86400)) ≠ some (some 86400) := by
  refine ⟨by decide, by decide, by decide⟩

/-- C6, amended: for every non-negative integral second count below one
day (86400), parsing the formatted time returns the original count. -/
theorem parse_format_roundtrip (s : Nat) (hs : s < 86400) :
    parse_time (some (format_time s)) = some (some (s : Int)) := by
  have hdata : (format_time s).data = formatTimeL s := rfl
  have hparse : parseTimeL (formatTimeL s) = some (s : Int) := by
    simp only [parseTimeL, splitOnChar_format s hs, parseParts,
      pythonIntL_natToDigits, pythonIntL_twoDigits]
    congr 1
    push_cast
    omega
  simp only [parse_time, hdata, hparse]

/-- C6, witness: the round trip at `s = 3725` (formatted `"1:02:05"`). -/
theorem parse_format_roundtrip_witness :
    parse_time (some (format_time 3725)) = some (some 3725) :=
  parse_format_roundtrip 3725 (by decide)

/-- An element not satisfying the predicate survives `dropWhile`. -/
theorem mem_dropWhile_of_false (p : Char → Bool) (c : Char) (hp : p c = false) :
    ∀ l : List Char, c ∈ l → c ∈ l.dropWhile p := by
  intro l
  induction l with
  | nil => intro h; cases h
  | cons d t ih =>
    intro hc
    by_cases hd : p d = true
    · rcases List.mem_cons.mp hc with rfl | h2
      · rw [hp] at hd; cases hd
      · simp only [List.dropWhile_cons, hd, if_true]
        exact ih h2
    · have hd' : p d = false := by
        cases hpd : p d
        · rfl
        · exact absurd hpd hd
      simp only [List.dropWhile_cons, hd', Bool.false_eq_true, if_false]
      exact hc

/-- A non-whitespace character survives stripping. -/
theorem mem_stripL (c : Char) (l : List Char) (hc : c ∈ l)
    (hws : Char.isWhitespace c = false) : c ∈ stripL l := by
  unfold stripL
  rw [List.mem_reverse]
  apply mem_dropWhile_of_false _ _ hws
  rw [List.mem_reverse]
  exact mem_dropWhile_of_false _ _ hws l hc

/-- `int()` raises on any string containing a colon. -/
theorem pythonIntL_of_colon (l : List Char) (hcl : ':' ∈ l) :
    pythonIntL l = none := by
  have hmem : ':' ∈ stripL l := mem_stripL ':' l hcl (by decide)
  simp only [pythonIntL]
  by_cases h1 : (stripL l).head? = some '-'
  · cases ht : stripL l with
    | nil => rw [ht] at h1; cases h1
    | cons a tt =>
      rw [ht] at h1 hmem
      have ha : a = '-' := Option.some_inj.mp (by simpa using h1)
      have hct : ':' ∈ tt := by
        rcases List.mem_cons.mp hmem with h2 | h2
        · exact absurd (h2.trans ha) (by decide)
        · exact h2
      rw [if_pos h1]
      apply if_neg
      rintro ⟨-, hall⟩
      exact absurd (List.all_eq_true.mp hall ':' (by simpa using hct)) (by decide)
  · by_cases h2 : (stripL l).head? = some '+'
    · cases ht : stripL l with
      | nil => rw [ht] at h2; cases h2
      | cons a tt =>
        rw [ht] at h2 hmem
        have ha : a = '+' := Option.some_inj.mp (by simpa using h2)
        have hct : ':' ∈ tt := by
          rcases List.mem_cons.mp hmem with h3 | h3
          · exact absurd (h3.trans ha) (by decide)
          · exact h3
        rw [ht] at h1
        rw [if_neg h1, if_pos h2]
        apply if_neg
        rintro ⟨-, hall⟩
        exact absurd (List.all_eq_true.mp hall ':' (by simpa using hct)) (by decide)
    · rw [if_neg h1, if_neg h2]
      apply if_neg
      rintro ⟨-, hall⟩
      exact absurd (List.all_eq_true.mp hall ':' hmem) (by decide)

/-- Successful `map int` preserves the number of parts. -/
theorem parseParts_length :
    ∀ (ps : List (List Char)) (tp : List Int),
      parseParts ps = some tp → tp.length = ps.length := by
  intro ps
  induction ps with
  | nil =>
    intro tp h
    simp only [parseParts, Option.some_inj] at h
    rw [← h]
    rfl
  | cons p ps ih =>
    intro tp h
    simp only [parseParts] at h
    cases hv : pythonIntL p with
    | none => rw [hv] at h; cases h
    | some v =>
      rw [hv] at h
      cases hps : parseParts ps with
      | none => rw [hps] at h; cases h
      | some vs =>
        rw [hps] at h
        obtain rfl : v :: vs = tp := Option.some_inj.mp h
        simp [ih vs hps]

/-- `map int` over the parts succeeds exactly when `int()` succeeds on
every part. -/
theorem parseParts_isSome_iff :
    ∀ ps : List (List Char),
      (parseParts ps).isSome = true ↔ ∀ p ∈ ps, (pythonIntL p).isSome = true := by
  intro ps
  induction ps with
  | nil => simp [parseParts]
  | cons p ps ih =>
    simp only [parseParts]
    cases hv : pythonIntL p with
    | none =>
      cases hps : parseParts ps <;>
        simp [hv, List.mem_cons]
    | some v =>
      cases hps : parseParts ps with
      | none =>
        rw [hps] at ih
        have hnall : ¬ ∀ q ∈ ps, (pythonIntL q).isSome = true := by
          intro hf
          simpa using ih.mpr hf
        push_neg at hnall
        rcases hnall with ⟨q, hq, hqn⟩
        simp [hv, List.mem_cons]
        exact ⟨q, hq, Option.not_isSome_iff_eq_none.mp hqn⟩
      | some vs =>
        rw [hps] at ih
        simp [hv, List.mem_cons, ← ih]

/-- A string containing the separator splits into at least two parts. -/
theorem splitOnChar_two_of_mem (sep : Char) :
    ∀ l : List Char, sep ∈ l → 2 ≤ (splitOnChar sep l).length := by
  intro l
  induction l with
  | nil => intro h; cases h
  | cons c t ih =>
    intro hc
    simp only [splitOnChar]
    by_cases h : c = sep
    · rw [if_pos h]
      have hne := splitOnChar_ne_nil sep t
      have hpos : 0 < (splitOnChar sep t).length := List.length_pos.mpr hne
      simp only [List.length_cons]
      omega
    · rw [if_neg h]
      have hsep : sep ∈ t := by
        rcases List.mem_cons.mp hc with h2 | h2
        · exact absurd h2.symm h
        · exact h2
      have h2 := ih hsep
      cases hsp : splitOnChar sep t with
      | nil => exact absurd hsp (splitOnChar_ne_nil sep t)
      | cons hh tt =>
        rw [hsp] at h2
        simp only [List.length_cons] at h2 ⊢
        omega

/-- C7, counterexample: the bare decimal seconds string `"12.5"`, which
the claim says is accepted, makes `parse_time` raise (line 85's
`int("12.5")` raises `ValueError`). -/
theorem parse_time_rejects_decimal :
    parse_time (some "12.5") = none
    ∧ (parse_time (some "12.5")).isSome = false := ⟨by decide, by decide⟩

/-- `parse_time` on an actual string succeeds exactly when the string
splits on `':'` into at most three parts each accepted by `int()`. -/
theorem parseTimeL_isSome_iff (l : List Char) :
    (parseTimeL l).isSome = true
      ↔ ((splitOnChar ':' l).length ≤ 3
          ∧ ∀ p ∈ splitOnChar ':' l, (pythonIntL p).isSome = true) := by
  simp only [parseTimeL]
  cases hpp : parseParts (splitOnChar ':' l) with
  | none =>
    simp only [Option.isSome_none, Bool.false_eq_true, false_iff, not_and]
    intro _ hall
    have h := (parseParts_isSome_iff _).mpr hall
    rw [hpp] at h
    cases h
  | some tp =>
    have hlen := parseParts_length _ tp hpp
    have hall : ∀ p ∈ splitOnChar ':' l, (pythonIntL p).isSome = true := by
      apply (parseParts_isSome_iff _).mp
      rw [hpp]
      rfl
    match tp, hlen with
    | [], hlen =>
      rw [List.length_nil] at hlen
      exact absurd (List.length_eq_zero.mp hlen.symm) (splitOnChar_ne_nil ':' l)
    | [a], hlen =>
      simp only [List.length_cons, List.length_nil] at hlen
      by_cases hc : ':' ∈ l
      · exact absurd (splitOnChar_two_of_mem ':' l hc) (by omega)
      · have hsp : splitOnChar ':' l = [l] :=
          splitOnChar_no_sep ':' l (fun x hxl hxeq => hc (hxeq ▸ hxl))
        have hil : (pythonIntL l).isSome = true :=
          hall l (by rw [hsp]; exact List.mem_cons_self _ _)
        exact iff_of_true (by simpa using hil) ⟨by omega, hall⟩
    | [a, b], hlen =>
      simp only [List.length_cons, List.length_nil] at hlen
      exact iff_of_true (by simp) ⟨by omega, hall⟩
    | [a, b, c], hlen =>
      simp only [List.length_cons, List.length_nil] at hlen
      exact iff_of_true (by simp) ⟨by omega, hall⟩
    | a :: b :: c :: d :: rest, hlen =>
      simp only [List.length_cons] at hlen
      have hge : 2 ≤ (splitOnChar ':' l).length := by omega
      have hc : ':' ∈ l := by
        by_contra hnc
        have hsp : splitOnChar ':' l = [l] :=
          splitOnChar_no_sep ':' l (fun x hxl hxeq => hnc (hxeq ▸ hxl))
        rw [hsp] at hge
        simp at hge
      have hnone : pythonIntL l = none := pythonIntL_of_colon l hc
      refine iff_of_false (by simp [hnone]) ?_
      rintro ⟨hle, -⟩
      omega

/-- C7, amended: `parse_time` on a string returns a seconds value exactly
for at most three colon-separated components each accepted by Python's
`int()` (H:M:S, M:S, or a bare integer, signs allowed) — and fails with
`ValueError` on everything else, *including* bare decimal strings such as
`"12.5"`, which the int conversion rejects. -/
theorem parse_time_accepts_iff (s : String) :
    (parse_time (some s)).isSome = true
      ↔ ((splitOnChar ':' s.data).length ≤ 3
          ∧ ∀ p ∈ splitOnChar ':' s.data, (pythonIntL p).isSome = true) := by
  have h := parseTimeL_isSome_iff s.data
  simp only [parse_time]
  cases hp : parseTimeL s.data with
  | none =>
    rw [hp] at h
    simpa using h
  | some v =>
    rw [hp] at h
    simpa using h

/-- C10: `parse_time` applied to `None` returns `None` instead of
raising. -/
theorem parse_time_none : parse_time none = some none := rfl

